import Mathlib

/-!
Verification of the repeated Longstaff–Schwartz Monte Carlo (LSMC) American
put pricer of `4-Super_LSMC/4.2.1-Extended_example_repeats.ipynb`.

The notebook's single code cell is embedded shallowly:

* `pathS` is the geometric-Brownian-motion path matrix `S` built column by
  column (`S[:,0] = S0`, `S[:,i] = S[:,i-1] * exp((r-0.5*sigma^2)*dt +
  sigma*sqrt(dt)*Z)`), with the standard-normal draws supplied as an input
  stream `Z` (step index first, path index second), mirroring the per-step
  vector draws of the source.
* `SolverState` carries the three per-path arrays `intrinsic`, `payoff`,
  `exec_t` that the backward induction mutates; `initState` is their
  initialization at maturity, `backStep` is one iteration of the backward
  loop `for t_now in range(nt-1, 0, -1)`, `backLoop` iterates it down to
  index 1, and `solvePrice` is the final discount-and-average.
* The call `numpy.linalg.lstsq` is abstracted as an oracle
  `fit : List (ℝ × ℝ × ℝ) → List ℝ → ℝ × ℝ × ℝ` receiving exactly the design
  matrix rows and target vector the source builds; where a claim depends on
  the least-squares property, that property (`SSE`-minimality) is a stated
  hypothesis about the oracle, matching what `lstsq` guarantees.
* `np_mean`, `np_std` embed `numpy.mean` and `numpy.std` (the latter with its
  default `ddof = 0`); `sampleStd` is a second definition written from the
  spec's words ("sample standard deviation", divisor `R - 1`) for comparison.
-/

noncomputable section

/-- The parameter block defined at the top of the script
(`r`, `K`, `dt`, `nt`, `N`, `S0`, `sigma`). -/
structure Params where
  r : ℝ
  K : ℝ
  dt : ℝ
  nt : ℕ
  N : ℕ
  S0 : ℝ
  sigma : ℝ

/-- One multiplicative GBM step factor
`exp((r - 0.5*sigma^2)*dt + sigma*sqrt(dt)*z)` from the simulation loop. -/
def gbmFactor (P : Params) (z : ℝ) : ℝ :=
  Real.exp ((P.r - 0.5 * P.sigma ^ 2) * P.dt + P.sigma * Real.sqrt P.dt * z)

/-- The simulated price matrix `S`: `S[:,0] = S0` and
`S[:,i] = S[:,i-1] * gbmFactor(Z[i])` for `i = 1..nt`.  `Z i p` is the
standard-normal draw used at step `i` for path `p`. -/
def pathS (P : Params) (Z : ℕ → ℕ → ℝ) (p : ℕ) : ℕ → ℝ
  | 0 => P.S0
  | i + 1 => pathS P Z p i * gbmFactor P (Z (i + 1) p)

/-- Per-path working arrays of the backward induction: `intrinsic`,
`payoff` and `exec_t` of the source, over `n` paths. -/
structure SolverState (n : ℕ) where
  intrinsic : Fin n → ℝ
  payoff : Fin n → ℝ
  exec_t : Fin n → ℕ

/-- Initialization before the backward loop:
`intrinsic = max(K - S[:,nt], 0)`, `payoff = copy(intrinsic)`,
`exec_t = nt` for every path. -/
def initState (P : Params) {n : ℕ} (S : Fin n → ℕ → ℝ) : SolverState n where
  intrinsic := fun p => max (P.K - S p P.nt) 0
  payoff := fun p => max (P.K - S p P.nt) 0
  exec_t := fun _ => P.nt

/-- STEP 1 of the loop body: `dcf = exp(-r*dt) * payoff`. -/
def dcfVec (P : Params) {n : ℕ} (payoff : Fin n → ℝ) : Fin n → ℝ :=
  fun p => Real.exp (-P.r * P.dt) * payoff p

/-- STEP 2: `itm_paths = np.where(S[:, t] < K)[0]`, the list of in-the-money
path indices in increasing order. -/
def itmList (K : ℝ) {n : ℕ} (S : Fin n → ℕ → ℝ) (t : ℕ) : List (Fin n) :=
  (List.finRange n).filter fun p => decide (S p t < K)

/-- STEP 3: the regression design matrix `X = [1, S, S^2]`, one row per
in-the-money path. -/
def designX (K : ℝ) {n : ℕ} (S : Fin n → ℕ → ℝ) (t : ℕ) : List (ℝ × ℝ × ℝ) :=
  (itmList K S t).map fun p => (1, S p t, S p t ^ 2)

/-- STEP 4: the regression target `y = dcf[itm_paths]`. -/
def targetY (K : ℝ) {n : ℕ} (S : Fin n → ℕ → ℝ) (t : ℕ) (dcf : Fin n → ℝ) : List ℝ :=
  (itmList K S t).map fun p => dcf p

/-- STEP 6: fitted value of the quadratic basis at spot `s`,
`beta_0 + beta_1 * s + beta_2 * s^2` (one entry of `y_hat = X @ beta`). -/
def yHat (β : ℝ × ℝ × ℝ) (s : ℝ) : ℝ := β.1 + β.2.1 * s + β.2.2 * s ^ 2

/-- The in-place refresh `intrinsic[itm_paths] = np.maximum(K - S[itm_paths, t], 0)`:
in-the-money entries are recomputed, the others keep their old value. -/
def refreshIntrinsic (K : ℝ) {n : ℕ} (S : Fin n → ℕ → ℝ) (t : ℕ)
    (old : Fin n → ℝ) : Fin n → ℝ :=
  fun p => if S p t < K then max (K - S p t) 0 else old p

/-- STEP 7: `exec_t[itm_paths] = np.where(y_hat < intrinsic[itm_paths], t, exec_t[itm_paths])`:
an in-the-money path whose fitted continuation value is strictly below the
(just refreshed) intrinsic value gets its exercise time set to `t`. -/
def updateExec (K : ℝ) {n : ℕ} (S : Fin n → ℕ → ℝ) (t : ℕ) (β : ℝ × ℝ × ℝ)
    (intr : Fin n → ℝ) (old : Fin n → ℕ) : Fin n → ℕ :=
  fun p => if S p t < K ∧ yHat β (S p t) < intr p then t else old p

/-- The final line of the loop body:
`payoff = np.where(exec_t == t, intrinsic, dcf)` over all paths. -/
def updatePayoff {n : ℕ} (t : ℕ) (ex : Fin n → ℕ) (intr dcf : Fin n → ℝ) : Fin n → ℝ :=
  fun p => if ex p = t then intr p else dcf p

/-- The coefficient vector `beta = lstsq(X, y)[0]` computed at step `t` from
state `st`, with the least-squares routine abstracted as `fit`. -/
def stepBeta (P : Params) {n : ℕ} (S : Fin n → ℕ → ℝ)
    (fit : List (ℝ × ℝ × ℝ) → List ℝ → ℝ × ℝ × ℝ) (t : ℕ) (st : SolverState n) :
    ℝ × ℝ × ℝ :=
  fit (designX P.K S t) (targetY P.K S t (dcfVec P st.payoff))

/-- One iteration of `for t_now in range(nt-1, 0, -1)`: discount, filter,
regress, refresh intrinsic, update exercise times, update payoffs. -/
def backStep (P : Params) {n : ℕ} (S : Fin n → ℕ → ℝ)
    (fit : List (ℝ × ℝ × ℝ) → List ℝ → ℝ × ℝ × ℝ) (t : ℕ) (st : SolverState n) :
    SolverState n :=
  let dcf := dcfVec P st.payoff
  let β := stepBeta P S fit t st
  let intr := refreshIntrinsic P.K S t st.intrinsic
  let ex := updateExec P.K S t β intr st.exec_t
  { intrinsic := intr, payoff := updatePayoff t ex intr dcf, exec_t := ex }

/-- `backLoop T st` runs the backward iterations at indices `T, T-1, ..., 1`
(the source loop is `range(nt-1, 0, -1)`, so the whole loop is
`backLoop (nt-1)` applied to the initial state). -/
def backLoop (P : Params) {n : ℕ} (S : Fin n → ℕ → ℝ)
    (fit : List (ℝ × ℝ × ℝ) → List ℝ → ℝ × ℝ × ℝ) : ℕ → SolverState n → SolverState n
  | 0, st => st
  | t + 1, st => backLoop P S fit t (backStep P S fit (t + 1) st)

/-- The state after the whole backward induction of one repetition. -/
def finalState (P : Params) {n : ℕ} (S : Fin n → ℕ → ℝ)
    (fit : List (ℝ × ℝ × ℝ) → List ℝ → ℝ × ℝ × ℝ) : SolverState n :=
  backLoop P S fit (P.nt - 1) (initState P S)

/-- The per-repetition price estimate: after the loop,
`dcf = exp(-r*dt) * payoff` and `price_estimate = np.mean(dcf)`. -/
def solvePrice (P : Params) {n : ℕ} (S : Fin n → ℕ → ℝ)
    (fit : List (ℝ × ℝ × ℝ) → List ℝ → ℝ × ℝ × ℝ) : ℝ :=
  (∑ p : Fin n, Real.exp (-P.r * P.dt) * (finalState P S fit).payoff p) / n

/-- The path batch consumed by one repetition: `N` paths over times `0..nt`. -/
def batch (P : Params) (Z : ℕ → ℕ → ℝ) : Fin P.N → ℕ → ℝ :=
  fun p i => pathS P Z p.val i

/-- One repetition of the outer loop: simulate a fresh batch, run the
backward induction, return the price estimate. -/
def runRep (P : Params) (Z : ℕ → ℕ → ℝ)
    (fit : List (ℝ × ℝ × ℝ) → List ℝ → ℝ × ℝ × ℝ) : ℝ :=
  solvePrice P (batch P Z) fit

/-- The vector `price_estimate` over the `R` repetitions; `Z rep` is the
stream of normal draws consumed by repetition `rep`. -/
def priceEstimates (P : Params) (Z : ℕ → ℕ → ℕ → ℝ)
    (fit : List (ℝ × ℝ × ℝ) → List ℝ → ℝ × ℝ × ℝ) (R : ℕ) : List ℝ :=
  (List.range R).map fun rep => runRep P (Z rep) fit

/-- `numpy.mean`: sum divided by length. -/
def np_mean (xs : List ℝ) : ℝ := xs.sum / xs.length

/-- The quantity under the square root in `numpy.std` with its default
`ddof = 0`: mean of the squared deviations (divisor `R`). -/
def np_var (xs : List ℝ) : ℝ := (xs.map fun x => (x - np_mean xs) ^ 2).sum / xs.length

/-- `numpy.std` with its default `ddof = 0` (population standard deviation). -/
def np_std (xs : List ℝ) : ℝ := Real.sqrt (np_var xs)

/-- The two numbers the script prints: `np.mean(price_estimate)` and
`np.std(price_estimate)`. -/
def aggregateResult (xs : List ℝ) : ℝ × ℝ := (np_mean xs, np_std xs)

/-- Modelled from the spec: the claim's "sample standard deviation" divisor,
sum of squared deviations over `R - 1` (this is not what the code computes;
it is stated for comparison with `np_std`). -/
def sampleVar (xs : List ℝ) : ℝ :=
  (xs.map fun x => (x - np_mean xs) ^ 2).sum / ((xs.length : ℝ) - 1)

/-- Modelled from the spec: sample standard deviation with divisor `R - 1`. -/
def sampleStd (xs : List ℝ) : ℝ := Real.sqrt (sampleVar xs)

/-- Dot product of a coefficient triple with one design-matrix row. -/
def rowDot (β x : ℝ × ℝ × ℝ) : ℝ := β.1 * x.1 + β.2.1 * x.2.1 + β.2.2 * x.2.2

/-- The residual sum of squares `‖X·β − y‖²` that `numpy.linalg.lstsq`
minimizes over `β`. -/
def SSE (X : List (ℝ × ℝ × ℝ)) (y : List ℝ) (β : ℝ × ℝ × ℝ) : ℝ :=
  ((X.zip y).map fun q => (rowDot β q.1 - q.2) ^ 2).sum

/-- A trivial regression oracle (used to instantiate theorems at concrete
inputs whose runs never consult the regression output). -/
def fitZero : List (ℝ × ℝ × ℝ) → List ℝ → ℝ × ℝ × ℝ := fun _ _ => (0, 0, 0)

/-- A regression oracle returning the first target value as the constant
coefficient; on a design whose rows are all `(1, s, s^2)` with a constant
target it reproduces the target exactly. -/
def fitHead : List (ℝ × ℝ × ℝ) → List ℝ → ℝ × ℝ × ℝ := fun _ y => (y.headD 0, 0, 0)

/-! ### Basic characterizations of the embedded operations -/

lemma mem_itmList {n : ℕ} (K : ℝ) (S : Fin n → ℕ → ℝ) (t : ℕ) (p : Fin n) :
    p ∈ itmList K S t ↔ S p t < K := by
  simp [itmList]

lemma itmList_all {n : ℕ} (K : ℝ) (S : Fin n → ℕ → ℝ) (t : ℕ)
    (h : ∀ p, S p t < K) : itmList K S t = List.finRange n := by
  refine List.filter_eq_self.mpr ?_
  intro a _
  simpa using h a

lemma itmList_nil {n : ℕ} (K : ℝ) (S : Fin n → ℕ → ℝ) (t : ℕ)
    (h : ∀ p, ¬ S p t < K) : itmList K S t = [] := by
  refine List.filter_eq_nil_iff.mpr ?_
  intro a _
  simpa using h a

lemma backStep_intrinsic (P : Params) {n : ℕ} (S : Fin n → ℕ → ℝ)
    (fit : List (ℝ × ℝ × ℝ) → List ℝ → ℝ × ℝ × ℝ) (t : ℕ) (st : SolverState n) :
    (backStep P S fit t st).intrinsic = refreshIntrinsic P.K S t st.intrinsic := rfl

lemma backStep_exec (P : Params) {n : ℕ} (S : Fin n → ℕ → ℝ)
    (fit : List (ℝ × ℝ × ℝ) → List ℝ → ℝ × ℝ × ℝ) (t : ℕ) (st : SolverState n)
    (p : Fin n) :
    (backStep P S fit t st).exec_t p =
      if S p t < P.K ∧ yHat (stepBeta P S fit t st) (S p t) <
          refreshIntrinsic P.K S t st.intrinsic p
      then t else st.exec_t p := rfl

lemma backStep_payoff (P : Params) {n : ℕ} (S : Fin n → ℕ → ℝ)
    (fit : List (ℝ × ℝ × ℝ) → List ℝ → ℝ × ℝ × ℝ) (t : ℕ) (st : SolverState n)
    (p : Fin n) :
    (backStep P S fit t st).payoff p =
      if (backStep P S fit t st).exec_t p = t
      then refreshIntrinsic P.K S t st.intrinsic p
      else Real.exp (-P.r * P.dt) * st.payoff p := rfl

/-- In one backward step, a path's exercise time is either set to the current
loop index or left unchanged. -/
lemma backStep_exec_cases (P : Params) {n : ℕ} (S : Fin n → ℕ → ℝ)
    (fit : List (ℝ × ℝ × ℝ) → List ℝ → ℝ × ℝ × ℝ) (t : ℕ) (st : SolverState n)
    (p : Fin n) :
    (backStep P S fit t st).exec_t p = t ∨
      (backStep P S fit t st).exec_t p = st.exec_t p := by
  rw [backStep_exec]
  by_cases h : S p t < P.K ∧ yHat (stepBeta P S fit t st) (S p t) <
      refreshIntrinsic P.K S t st.intrinsic p
  · exact Or.inl (if_pos h)
  · exact Or.inr (if_neg h)

/-- If a backward step changes a path's exercise time, then the path was
in the money and the strict exercise test fired, and the new value is `t`. -/
lemma backStep_exec_changed (P : Params) {n : ℕ} (S : Fin n → ℕ → ℝ)
    (fit : List (ℝ × ℝ × ℝ) → List ℝ → ℝ × ℝ × ℝ) (t : ℕ) (st : SolverState n)
    (p : Fin n) (h : (backStep P S fit t st).exec_t p ≠ st.exec_t p) :
    (backStep P S fit t st).exec_t p = t ∧ S p t < P.K ∧
      yHat (stepBeta P S fit t st) (S p t) <
        refreshIntrinsic P.K S t st.intrinsic p := by
  rw [backStep_exec] at h ⊢
  by_cases hc : S p t < P.K ∧ yHat (stepBeta P S fit t st) (S p t) <
      refreshIntrinsic P.K S t st.intrinsic p
  · exact ⟨if_pos hc, hc⟩
  · exact absurd (if_neg hc) h

/-- Generic invariant-propagation along the backward loop: if `I t st` means
"the invariant holds for the state entering the step with index `t`" and one
backward step at index `t+1` carries `I (t+1)` to `I t`, then running the loop
from index `T` carries `I T` to `I 0`. -/
lemma backLoop_inv (P : Params) {n : ℕ} (S : Fin n → ℕ → ℝ)
    (fit : List (ℝ × ℝ × ℝ) → List ℝ → ℝ × ℝ × ℝ)
    (I : ℕ → SolverState n → Prop)
    (hstep : ∀ t st, I (t + 1) st → I t (backStep P S fit (t + 1) st)) :
    ∀ T st, I T st → I 0 (backLoop P S fit T st) := by
  intro T
  induction T with
  | zero => intro st h; exact h
  | succ T ih =>
      intro st h
      exact ih (backStep P S fit (T + 1) st) (hstep T st h)

/-- Nonnegativity of a residual sum of squares. -/
lemma SSE_nonneg (X : List (ℝ × ℝ × ℝ)) (y : List ℝ) (β : ℝ × ℝ × ℝ) :
    0 ≤ SSE X y β := by
  refine List.sum_nonneg ?_
  intro a ha
  rcases List.mem_map.mp ha with ⟨q, _, rfl⟩
  exact sq_nonneg _

/-- Residual sum of squares of a constant design with a constant target. -/
lemma SSE_replicate (m : ℕ) (x : ℝ × ℝ × ℝ) (v : ℝ) (β : ℝ × ℝ × ℝ) :
    SSE (List.replicate m x) (List.replicate m v) β = m * (rowDot β x - v) ^ 2 := by
  rw [SSE, List.zip_replicate', List.map_replicate, List.sum_replicate, nsmul_eq_mul]

/-- Entering the backward step with index `t`, every exercise time is a later
step (`> t`) and at most the maturity index `nt`. -/
def execWindow (P : Params) {n : ℕ} (t : ℕ) (st : SolverState n) : Prop :=
  ∀ p, t < st.exec_t p ∧ st.exec_t p ≤ P.nt

lemma execWindow_step (P : Params) {n : ℕ} (S : Fin n → ℕ → ℝ)
    (fit : List (ℝ × ℝ × ℝ) → List ℝ → ℝ × ℝ × ℝ) (t : ℕ) (st : SolverState n)
    (h : execWindow P (t + 1) st) :
    execWindow P t (backStep P S fit (t + 1) st) := by
  intro p
  rcases backStep_exec_cases P S fit (t + 1) st p with hc | hc
  · rw [hc]
    exact ⟨Nat.lt_succ_self t, le_trans (Nat.le_of_lt (h p).1) (h p).2⟩
  · rw [hc]
    exact ⟨lt_trans (Nat.lt_succ_self t) (h p).1, (h p).2⟩

lemma execWindow_final (P : Params) {n : ℕ} (S : Fin n → ℕ → ℝ)
    (fit : List (ℝ × ℝ × ℝ) → List ℝ → ℝ × ℝ × ℝ) (hnt : 1 ≤ P.nt) :
    execWindow P 0 (finalState P S fit) := by
  refine backLoop_inv P S fit (execWindow P) (execWindow_step P S fit) (P.nt - 1)
    (initState P S) ?_
  intro p
  exact ⟨Nat.sub_lt (Nat.lt_of_lt_of_le Nat.zero_lt_one hnt) Nat.zero_lt_one, le_rfl⟩

/-! ### Claim theorems -/

/-- C2: at the end of the backward loop every path's `exec_t` lies in
`{1, ..., nt}`; it starts at `nt`, and one backward step at loop index `t`
(whose entering exercise times all exceed `t`, as the loop maintains) can
only keep a path's exercise time or overwrite it with the strictly smaller
current index `t`, so exercise times are monotonically non-increasing and
never move later. -/
theorem exec_time_valid_and_monotone (P : Params) {n : ℕ} (S : Fin n → ℕ → ℝ)
    (fit : List (ℝ × ℝ × ℝ) → List ℝ → ℝ × ℝ × ℝ) (hnt : 1 ≤ P.nt) :
    (∀ p, (initState P S).exec_t p = P.nt) ∧
    (∀ p, 1 ≤ (finalState P S fit).exec_t p ∧ (finalState P S fit).exec_t p ≤ P.nt) ∧
    (∀ t (st : SolverState n) p, (∀ q, t < st.exec_t q) →
      (backStep P S fit t st).exec_t p ≤ st.exec_t p ∧
      ((backStep P S fit t st).exec_t p ≠ st.exec_t p →
        (backStep P S fit t st).exec_t p = t ∧ t < st.exec_t p)) := by
  refine ⟨fun p => rfl, ?_, ?_⟩
  · intro p
    have h := execWindow_final P S fit hnt p
    exact ⟨Nat.succ_le_of_lt h.1, h.2⟩
  · intro t st p hst
    rcases backStep_exec_cases P S fit t st p with hc | hc
    · rw [hc]
      exact ⟨Nat.le_of_lt (hst p), fun _ => ⟨rfl, hst p⟩⟩
    · rw [hc]
      exact ⟨le_rfl, fun hne => absurd rfl hne⟩

/-- C6: both comparisons are strict — a path enters the regression set iff
`S[p,t] < K` (so a path exactly at the money is excluded), and an exercise
time is rewritten at step `t` only when the fitted continuation value is
strictly below the refreshed intrinsic value (if the comparison fails, in
particular on equality, `exec_t` is left unchanged). -/
theorem strict_itm_and_exercise_tests (P : Params) {n : ℕ} (S : Fin n → ℕ → ℝ)
    (fit : List (ℝ × ℝ × ℝ) → List ℝ → ℝ × ℝ × ℝ) (t : ℕ) (st : SolverState n)
    (p : Fin n) :
    (p ∈ itmList P.K S t ↔ S p t < P.K) ∧
    (S p t = P.K → p ∉ itmList P.K S t) ∧
    (¬ yHat (stepBeta P S fit t st) (S p t) <
        refreshIntrinsic P.K S t st.intrinsic p →
      (backStep P S fit t st).exec_t p = st.exec_t p) ∧
    ((backStep P S fit t st).exec_t p ≠ st.exec_t p →
      S p t < P.K ∧ yHat (stepBeta P S fit t st) (S p t) <
        refreshIntrinsic P.K S t st.intrinsic p) := by
  refine ⟨mem_itmList P.K S t p, ?_, ?_, ?_⟩
  · intro heq hmem
    exact absurd ((mem_itmList P.K S t p).mp hmem) (by rw [heq]; exact lt_irrefl _)
  · intro hno
    rw [backStep_exec]
    exact if_neg (fun hc => hno hc.2)
  · intro hne
    exact (backStep_exec_changed P S fit t st p hne).2

/-- C8: when no path is in the money at step `t`, the regression inputs are
empty lists, the solver still takes the step (it is a total function), and
the step leaves every `exec_t` and `intrinsic` entry unchanged while every
payoff becomes its discounted carried-forward value `exp(-r*dt) * payoff`. -/
theorem empty_itm_step_skips (P : Params) {n : ℕ} (S : Fin n → ℕ → ℝ)
    (fit : List (ℝ × ℝ × ℝ) → List ℝ → ℝ × ℝ × ℝ) (t : ℕ) (st : SolverState n)
    (hotm : ∀ q, ¬ S q t < P.K) (hexec : ∀ q, t < st.exec_t q) :
    itmList P.K S t = [] ∧
    designX P.K S t = [] ∧
    targetY P.K S t (dcfVec P st.payoff) = [] ∧
    ∀ p, (backStep P S fit t st).exec_t p = st.exec_t p ∧
      (backStep P S fit t st).intrinsic p = st.intrinsic p ∧
      (backStep P S fit t st).payoff p = Real.exp (-P.r * P.dt) * st.payoff p := by
  have hnil : itmList P.K S t = [] := itmList_nil P.K S t hotm
  refine ⟨hnil, by rw [designX, hnil]; rfl, by rw [targetY, hnil]; rfl, ?_⟩
  intro p
  have hex : (backStep P S fit t st).exec_t p = st.exec_t p := by
    rw [backStep_exec]
    exact if_neg (fun hc => hotm p hc.1)
  refine ⟨hex, ?_, ?_⟩
  · rw [backStep_intrinsic, refreshIntrinsic]
    exact if_neg (hotm p)
  · rw [backStep_payoff, hex]
    exact if_neg (Nat.ne_of_gt (hexec p))

/-- The exercise-state invariant actually maintained by the code: entering
the point of the induction where the next step index is `c - 1` (i.e. after
the step at index `c`, or initially with `c = nt`), every exercise time lies
in `{c, ..., nt}` and every payoff equals the intrinsic put value at the
path's exercise time discounted back to time `c`, one factor `exp(-r*dt)`
per elapsed step. -/
def payoffInv (P : Params) {n : ℕ} (S : Fin n → ℕ → ℝ) (c : ℕ)
    (st : SolverState n) : Prop :=
  ∀ p, c ≤ st.exec_t p ∧ st.exec_t p ≤ P.nt ∧
    st.payoff p =
      Real.exp (-P.r * P.dt) ^ (st.exec_t p - c) * max (P.K - S p (st.exec_t p)) 0

lemma payoffInv_init (P : Params) {n : ℕ} (S : Fin n → ℕ → ℝ) :
    payoffInv P S P.nt (initState P S) := by
  intro p
  refine ⟨le_rfl, le_rfl, ?_⟩
  simp [initState]

lemma payoffInv_step (P : Params) {n : ℕ} (S : Fin n → ℕ → ℝ)
    (fit : List (ℝ × ℝ × ℝ) → List ℝ → ℝ × ℝ × ℝ) (t : ℕ) (st : SolverState n)
    (h : payoffInv P S (t + 1) st) :
    payoffInv P S t (backStep P S fit t st) := by
  intro p
  obtain ⟨hc, hnt, hpay⟩ := h p
  by_cases hcond : S p t < P.K ∧ yHat (stepBeta P S fit t st) (S p t) <
      refreshIntrinsic P.K S t st.intrinsic p
  · have hex : (backStep P S fit t st).exec_t p = t := by
      rw [backStep_exec]; exact if_pos hcond
    refine ⟨le_of_eq hex.symm, ?_, ?_⟩
    · rw [hex]; exact le_trans (Nat.le_succ t) (le_trans hc hnt)
    · rw [backStep_payoff, if_pos hex, hex, Nat.sub_self, pow_zero, one_mul,
        refreshIntrinsic, if_pos hcond.1]
  · have hex : (backStep P S fit t st).exec_t p = st.exec_t p := by
      rw [backStep_exec]; exact if_neg hcond
    have hgt : t < st.exec_t p := Nat.lt_of_lt_of_le (Nat.lt_succ_self t) hc
    refine ⟨?_, ?_, ?_⟩
    · rw [hex]; exact Nat.le_of_lt hgt
    · rw [hex]; exact hnt
    · rw [backStep_payoff, hex, if_neg (Nat.ne_of_gt hgt), hpay]
      have hsub : st.exec_t p - t = (st.exec_t p - (t + 1)) + 1 := by omega
      rw [hsub, pow_succ]
      ring

lemma payoffInv_final (P : Params) {n : ℕ} (S : Fin n → ℕ → ℝ)
    (fit : List (ℝ × ℝ × ℝ) → List ℝ → ℝ × ℝ × ℝ) (hnt : 1 ≤ P.nt) :
    payoffInv P S 1 (finalState P S fit) := by
  have h := backLoop_inv P S fit (fun t st => payoffInv P S (t + 1) st)
    (fun t st ht => payoffInv_step P S fit (t + 1) st ht) (P.nt - 1) (initState P S)
  rw [finalState]
  refine h ?_
  rw [Nat.sub_add_cancel hnt]
  exact payoffInv_init P S

/-- C7 (amended): the exercise-state invariant that the code actually
maintains.  After initialization it holds with horizon `nt`; every backward
step at index `t` carries it from `t+1` to `t`; and after the whole loop every
payoff equals the intrinsic value at the path's exercise time *discounted*
back to step 1 by one factor `exp(-r*dt)` per elapsed step (the claim's
undiscounted equality is what fails; see the counterexample). -/
theorem payoff_discounted_intrinsic_invariant (P : Params) {n : ℕ}
    (S : Fin n → ℕ → ℝ) (fit : List (ℝ × ℝ × ℝ) → List ℝ → ℝ × ℝ × ℝ)
    (hnt : 1 ≤ P.nt) :
    payoffInv P S P.nt (initState P S) ∧
    (∀ t (st : SolverState n), payoffInv P S (t + 1) st →
      payoffInv P S t (backStep P S fit t st)) ∧
    payoffInv P S 1 (finalState P S fit) :=
  ⟨payoffInv_init P S, fun t st h => payoffInv_step P S fit t st h,
    payoffInv_final P S fit hnt⟩

/-- Concrete two-step scenario refuting the undiscounted form of the
exercise-state invariant: one path, out of the money at step 1, in the money
at maturity 2. -/
def P7 : Params := { r := 1, K := 1, dt := 1, nt := 2, N := 1, S0 := 2, sigma := 0 }

/-- The path batch for the C7 counterexample: spot 2 at times 0 and 1,
spot 0 at maturity 2. -/
def S7 : Fin 1 → ℕ → ℝ := fun _ i => if i = 2 then 0 else 2

/-- C7 (counterexample): after the backward step at `t = 1` of the scenario
`P7`/`S7`, the path's payoff is `exp(-1)`, not the undiscounted intrinsic
value `max(K - S[p, exec_t], 0) = 1` at its exercise time — the claimed
undiscounted equality is false. -/
theorem payoff_undiscounted_invariant_cex :
    (finalState P7 S7 fitZero).payoff 0 ≠
      max (P7.K - S7 0 ((finalState P7 S7 fitZero).exec_t 0)) 0 := by
  have hfin : finalState P7 S7 fitZero = backStep P7 S7 fitZero 1 (initState P7 S7) :=
    rfl
  have hS1 : S7 0 1 = 2 := by norm_num [S7]
  have hS2 : S7 0 2 = 0 := by norm_num [S7]
  have hex : (backStep P7 S7 fitZero 1 (initState P7 S7)).exec_t 0 = 2 := by
    rw [backStep_exec]
    rw [if_neg]
    · rfl
    · intro hc
      rw [hS1] at hc
      have : ¬ (2 : ℝ) < 1 := by norm_num
      exact this (by simpa [P7] using hc.1)
  have hpay0 : (initState P7 S7).payoff 0 = 1 := by
    show max (P7.K - S7 0 P7.nt) 0 = 1
    rw [show P7.nt = 2 from rfl, hS2]
    norm_num [P7]
  have hpay : (backStep P7 S7 fitZero 1 (initState P7 S7)).payoff 0 =
      Real.exp (-1) := by
    rw [backStep_payoff, hex, if_neg (by norm_num), hpay0]
    norm_num [P7]
  rw [hfin, hpay, hex, hS2]
  rw [show P7.K = 1 from rfl]
  norm_num

/-- Nonnegativity of the per-path working arrays: every payoff and every
stored intrinsic value is ≥ 0. -/
def nonnegState {n : ℕ} (st : SolverState n) : Prop :=
  ∀ p, 0 ≤ st.payoff p ∧ 0 ≤ st.intrinsic p

lemma nonnegState_init (P : Params) {n : ℕ} (S : Fin n → ℕ → ℝ) :
    nonnegState (initState P S) :=
  fun _ => ⟨le_max_right _ 0, le_max_right _ 0⟩

lemma nonnegState_step (P : Params) {n : ℕ} (S : Fin n → ℕ → ℝ)
    (fit : List (ℝ × ℝ × ℝ) → List ℝ → ℝ × ℝ × ℝ) (t : ℕ) (st : SolverState n)
    (h : nonnegState st) : nonnegState (backStep P S fit t st) := by
  intro p
  have hintr : 0 ≤ (backStep P S fit t st).intrinsic p := by
    rw [backStep_intrinsic, refreshIntrinsic]
    by_cases hc : S p t < P.K
    · rw [if_pos hc]; exact le_max_right _ 0
    · rw [if_neg hc]; exact (h p).2
  refine ⟨?_, hintr⟩
  rw [backStep_payoff]
  by_cases hc : (backStep P S fit t st).exec_t p = t
  · rw [if_pos hc]
    rw [backStep_intrinsic] at hintr
    exact hintr
  · rw [if_neg hc]
    exact mul_nonneg (le_of_lt (Real.exp_pos _)) (h p).1

lemma nonnegState_final (P : Params) {n : ℕ} (S : Fin n → ℕ → ℝ)
    (fit : List (ℝ × ℝ × ℝ) → List ℝ → ℝ × ℝ × ℝ) :
    nonnegState (finalState P S fit) :=
  backLoop_inv P S fit (fun _ st => nonnegState st)
    (fun t st h => nonnegState_step P S fit (t + 1) st h) (P.nt - 1) (initState P S)
    (nonnegState_init P S)

lemma solvePrice_nonneg (P : Params) {n : ℕ} (S : Fin n → ℕ → ℝ)
    (fit : List (ℝ × ℝ × ℝ) → List ℝ → ℝ × ℝ × ℝ) : 0 ≤ solvePrice P S fit := by
  rw [solvePrice]
  refine div_nonneg (Finset.sum_nonneg ?_) (Nat.cast_nonneg n)
  intro p _
  exact mul_nonneg (le_of_lt (Real.exp_pos _)) (nonnegState_final P S fit p).1

/-- C10: with valid parameters (`K > 0`, `S0 > 0`), every payoff and stored
intrinsic value is nonnegative at initialization, stays so across every
backward step, and is nonnegative in the final state; hence each
repetition's price estimate is nonnegative and so is the mean the
aggregator reports over the `R` repetitions. -/
theorem payoffs_and_prices_nonneg (P : Params) (hK : 0 < P.K) (hS0 : 0 < P.S0)
    {n : ℕ} (S : Fin n → ℕ → ℝ) (fit : List (ℝ × ℝ × ℝ) → List ℝ → ℝ × ℝ × ℝ)
    (Z : ℕ → ℕ → ℕ → ℝ) (R : ℕ) :
    nonnegState (initState P S) ∧
    (∀ t (st : SolverState n), nonnegState st → nonnegState (backStep P S fit t st)) ∧
    nonnegState (finalState P S fit) ∧
    0 ≤ solvePrice P S fit ∧
    (∀ rep, 0 ≤ runRep P (Z rep) fit) ∧
    0 ≤ np_mean (priceEstimates P Z fit R) := by
  refine ⟨nonnegState_init P S, fun t st h => nonnegState_step P S fit t st h,
    nonnegState_final P S fit, solvePrice_nonneg P S fit,
    fun rep => solvePrice_nonneg P (batch P (Z rep)) fit, ?_⟩
  rw [np_mean]
  refine div_nonneg (List.sum_nonneg ?_) (Nat.cast_nonneg _)
  intro a ha
  rw [priceEstimates] at ha
  rcases List.mem_map.mp ha with ⟨rep, _, rfl⟩
  exact solvePrice_nonneg P (batch P (Z rep)) fit

lemma gbmFactor_one (P : Params) (hs : P.sigma = 0) (hr : P.r = 0) (z : ℝ) :
    gbmFactor P z = 1 := by
  rw [gbmFactor, hr, hs]
  norm_num

lemma pathS_const (P : Params) (Z : ℕ → ℕ → ℝ) (hs : P.sigma = 0) (hr : P.r = 0)
    (p : ℕ) : ∀ i, pathS P Z p i = P.S0
  | 0 => rfl
  | i + 1 => by
      rw [pathS, gbmFactor_one P hs hr, mul_one]
      exact pathS_const P Z hs hr p i

/-- The invariant driving the zero-volatility/zero-rate scenario: every
payoff and intrinsic entry equals the constant `c` and every exercise time
still equals the maturity index `m`. -/
def constState (c : ℝ) (m : ℕ) {n : ℕ} (st : SolverState n) : Prop :=
  (∀ p, st.payoff p = c) ∧ (∀ p, st.intrinsic p = c) ∧ (∀ p, st.exec_t p = m)

lemma mean_const (n : ℕ) (c : ℝ) (h : 1 ≤ n) : (∑ _p : Fin n, c) / n = c := by
  rw [Finset.sum_const, Finset.card_univ, Fintype.card_fin, nsmul_eq_mul]
  field_simp

lemma constState_backStep (P : Params) {n : ℕ} (S : Fin n → ℕ → ℝ)
    (fit : List (ℝ × ℝ × ℝ) → List ℝ → ℝ × ℝ × ℝ) (t : ℕ) (st : SolverState n)
    (hr : P.r = 0) (hS : ∀ p i, S p i = P.S0)
    (hfit : ∀ β', SSE (List.replicate n ((1:ℝ), P.S0, P.S0 ^ 2))
        (List.replicate n (max (P.K - P.S0) 0))
        (fit (List.replicate n ((1:ℝ), P.S0, P.S0 ^ 2))
          (List.replicate n (max (P.K - P.S0) 0))) ≤
      SSE (List.replicate n ((1:ℝ), P.S0, P.S0 ^ 2))
        (List.replicate n (max (P.K - P.S0) 0)) β')
    (h : constState (max (P.K - P.S0) 0) P.nt st) :
    constState (max (P.K - P.S0) 0) P.nt (backStep P S fit t st) := by
  have hdcf : ∀ p, dcfVec P st.payoff p = max (P.K - P.S0) 0 := by
    intro p
    rw [dcfVec, hr, h.1 p]
    norm_num
  have hintr : ∀ p, refreshIntrinsic P.K S t st.intrinsic p = max (P.K - P.S0) 0 := by
    intro p
    rw [refreshIntrinsic, hS p t]
    by_cases hc : P.S0 < P.K
    · rw [if_pos hc]
    · rw [if_neg hc]
      exact h.2.1 p
  have hyhat : ∀ p : Fin n, P.S0 < P.K →
      yHat (stepBeta P S fit t st) P.S0 = max (P.K - P.S0) 0 := by
    intro p hc
    have hitm : itmList P.K S t = List.finRange n :=
      itmList_all P.K S t (fun q => by rw [hS q t]; exact hc)
    have hX : designX P.K S t = List.replicate n ((1:ℝ), P.S0, P.S0 ^ 2) := by
      rw [designX, hitm]
      rw [List.map_congr_left
        (fun q _ => by rw [hS q t] :
          ∀ q ∈ List.finRange n,
            ((1:ℝ), S q t, S q t ^ 2) = ((1:ℝ), P.S0, P.S0 ^ 2))]
      rw [List.map_const', List.length_finRange]
    have hY : targetY P.K S t (dcfVec P st.payoff) =
        List.replicate n (max (P.K - P.S0) 0) := by
      rw [targetY, hitm]
      rw [List.map_congr_left
        (fun q _ => hdcf q :
          ∀ q ∈ List.finRange n,
            dcfVec P st.payoff q = max (P.K - P.S0) 0)]
      rw [List.map_const', List.length_finRange]
    have hβ : stepBeta P S fit t st =
        fit (List.replicate n ((1:ℝ), P.S0, P.S0 ^ 2))
          (List.replicate n (max (P.K - P.S0) 0)) := by
      rw [stepBeta, hX, hY]
    have h2 : SSE (List.replicate n ((1:ℝ), P.S0, P.S0 ^ 2))
        (List.replicate n (max (P.K - P.S0) 0)) (max (P.K - P.S0) 0, 0, 0) = 0 := by
      rw [SSE_replicate]
      have : rowDot (max (P.K - P.S0) 0, 0, 0) ((1:ℝ), P.S0, P.S0 ^ 2) =
          max (P.K - P.S0) 0 := by
        rw [rowDot]
        ring
      rw [this]
      ring
    have h3 : SSE (List.replicate n ((1:ℝ), P.S0, P.S0 ^ 2))
        (List.replicate n (max (P.K - P.S0) 0)) (stepBeta P S fit t st) = 0 := by
      rw [hβ]
      have h6 := hfit (max (P.K - P.S0) 0, 0, 0)
      rw [h2] at h6
      exact le_antisymm h6 (SSE_nonneg _ _ _)
    rw [SSE_replicate] at h3
    have hn : (n : ℝ) ≠ 0 := by
      have := p.pos
      positivity
    have h4 : (rowDot (stepBeta P S fit t st) ((1:ℝ), P.S0, P.S0 ^ 2) -
        max (P.K - P.S0) 0) ^ 2 = 0 := by
      rcases mul_eq_zero.mp h3 with hl | hrr
      · exact absurd hl hn
      · exact hrr
    have h5 := pow_eq_zero_iff (n := 2) (by norm_num) |>.mp h4
    have h5' : (stepBeta P S fit t st).1 * 1 + (stepBeta P S fit t st).2.1 * P.S0 +
        (stepBeta P S fit t st).2.2 * P.S0 ^ 2 - max (P.K - P.S0) 0 = 0 := h5
    rw [yHat]
    linarith
  have hexec : ∀ p, (backStep P S fit t st).exec_t p = P.nt := by
    intro p
    rw [backStep_exec, if_neg, h.2.2 p]
    intro hc
    have hlt : P.S0 < P.K := by
      have := hc.1
      rwa [hS p t] at this
    have := hc.2
    rw [hS p t, hyhat p hlt, hintr p] at this
    exact lt_irrefl _ this
  refine ⟨?_, hintr, hexec⟩
  intro p
  rw [backStep_payoff]
  by_cases hc : (backStep P S fit t st).exec_t p = t
  · rw [if_pos hc]
    exact hintr p
  · rw [if_neg hc]
    have := hdcf p
    rw [dcfVec] at this
    exact this

/-- C1: with `sigma = 0` and `r = 0` and otherwise valid parameters, every
simulated path is constant at `S0`; the solver's exercise times all stay at
maturity `nt` (the fitted continuation value equals the intrinsic value, so
the strict exercise test never fires), and the repetition's price estimate
is exactly `max(K - S0, 0)`.  The regression oracle is assumed to minimize
the residual sum of squares on the (constant) design it is given, which is
what `numpy.linalg.lstsq` returns. -/
theorem zero_vol_zero_rate_exact_price (P : Params) (Z : ℕ → ℕ → ℝ)
    (fit : List (ℝ × ℝ × ℝ) → List ℝ → ℝ × ℝ × ℝ)
    (hs : P.sigma = 0) (hr : P.r = 0) (hnt : 1 ≤ P.nt) (hN : 1 ≤ P.N)
    (hdt : 0 < P.dt) (hS0 : 0 < P.S0) (hK : 0 < P.K)
    (hfit : ∀ β', SSE (List.replicate P.N ((1:ℝ), P.S0, P.S0 ^ 2))
        (List.replicate P.N (max (P.K - P.S0) 0))
        (fit (List.replicate P.N ((1:ℝ), P.S0, P.S0 ^ 2))
          (List.replicate P.N (max (P.K - P.S0) 0))) ≤
      SSE (List.replicate P.N ((1:ℝ), P.S0, P.S0 ^ 2))
        (List.replicate P.N (max (P.K - P.S0) 0)) β') :
    (∀ p i, pathS P Z p i = P.S0) ∧
    (∀ p, (finalState P (batch P Z) fit).exec_t p = P.nt) ∧
    runRep P Z fit = max (P.K - P.S0) 0 := by
  have hpath := pathS_const P Z hs hr
  have hS : ∀ (p : Fin P.N) i, batch P Z p i = P.S0 := fun p i => hpath p.val i
  have hinit : constState (max (P.K - P.S0) 0) P.nt (initState P (batch P Z)) := by
    refine ⟨fun p => ?_, fun p => ?_, fun p => rfl⟩
    · show max (P.K - batch P Z p P.nt) 0 = _
      rw [hS p P.nt]
    · show max (P.K - batch P Z p P.nt) 0 = _
      rw [hS p P.nt]
  have hfin : constState (max (P.K - P.S0) 0) P.nt (finalState P (batch P Z) fit) :=
    backLoop_inv P (batch P Z) fit (fun _ st => constState (max (P.K - P.S0) 0) P.nt st)
      (fun t st h => constState_backStep P (batch P Z) fit (t + 1) st hr hS hfit h)
      (P.nt - 1) (initState P (batch P Z)) hinit
  refine ⟨hpath, hfin.2.2, ?_⟩
  rw [runRep, solvePrice]
  have hsummand : ∀ p : Fin P.N,
      Real.exp (-P.r * P.dt) * (finalState P (batch P Z) fit).payoff p =
        max (P.K - P.S0) 0 := by
    intro p
    rw [hfin.1 p, hr]
    norm_num
  rw [Finset.sum_congr rfl (fun p _ => hsummand p)]
  exact mean_const P.N (max (P.K - P.S0) 0) hN

/-- C5: the simulated batch starts every path at `S0` (column 0) and each
later column is the previous column times
`exp((r - 0.5*sigma^2)*dt + sigma*sqrt(dt)*Z)` with that path's and step's
standard-normal draw. -/
theorem gbm_batch_recurrence (P : Params) (Z : ℕ → ℕ → ℝ) (p : ℕ) :
    pathS P Z p 0 = P.S0 ∧
    (∀ q : Fin P.N, batch P Z q 0 = P.S0) ∧
    (∀ i, 1 ≤ i → pathS P Z p i =
      pathS P Z p (i - 1) *
        Real.exp ((P.r - 0.5 * P.sigma ^ 2) * P.dt +
          P.sigma * Real.sqrt P.dt * Z i p)) := by
  refine ⟨rfl, fun q => rfl, ?_⟩
  intro i hi
  obtain ⟨j, rfl⟩ : ∃ j, i = j + 1 := ⟨i - 1, (Nat.succ_pred_eq_of_pos hi).symm⟩
  rw [Nat.add_sub_cancel]
  rfl

/-- C3 (amended): the aggregator reports the mean of the `R` price estimates
and their *population* standard deviation: the reported second component is
nonnegative and its square is the sum of squared deviations from the mean
divided by `R` (`numpy.std` with its default `ddof = 0`), not by `R - 1`. -/
theorem aggregate_mean_and_population_std (P : Params) (Z : ℕ → ℕ → ℕ → ℝ)
    (fit : List (ℝ × ℝ × ℝ) → List ℝ → ℝ × ℝ × ℝ) (R : ℕ) (hR : 1 ≤ R) :
    (priceEstimates P Z fit R).length = R ∧
    (aggregateResult (priceEstimates P Z fit R)).1 =
      (priceEstimates P Z fit R).sum / R ∧
    0 ≤ (aggregateResult (priceEstimates P Z fit R)).2 ∧
    (aggregateResult (priceEstimates P Z fit R)).2 ^ 2 =
      ((priceEstimates P Z fit R).map fun x =>
        (x - np_mean (priceEstimates P Z fit R)) ^ 2).sum / R := by
  have hlen : (priceEstimates P Z fit R).length = R := by
    rw [priceEstimates, List.length_map, List.length_range]
  refine ⟨hlen, ?_, Real.sqrt_nonneg _, ?_⟩
  · show np_mean (priceEstimates P Z fit R) = _
    rw [np_mean, hlen]
  · show np_std (priceEstimates P Z fit R) ^ 2 = _
    rw [np_std, Real.sq_sqrt, np_var, hlen]
    rw [np_var]
    refine div_nonneg (List.sum_nonneg ?_) (Nat.cast_nonneg _)
    intro a ha
    rcases List.mem_map.mp ha with ⟨x, _, rfl⟩
    exact sq_nonneg _

/-- Parameters for the C3 counterexample run: one path, one step,
`r = 0`, `K = 2`, `S0 = 1`, `sigma = 1`, two repetitions. -/
def P3 : Params := { r := 0, K := 2, dt := 1, nt := 1, N := 1, S0 := 1, sigma := 1 }

/-- Draw stream for the C3 counterexample: repetition 0 draws `1/2`
(GBM factor `exp 0 = 1`), repetition 1 draws `1/2 + log 2`
(GBM factor `exp (log 2) = 2`). -/
def Zc3 : ℕ → ℕ → ℕ → ℝ := fun rep _ _ => if rep = 0 then 1/2 else 1/2 + Real.log 2

/-- C3 (counterexample): running two repetitions of the pipeline at `P3`
with the draws `Zc3` yields the price estimates `[1, 0]`; on them the code
reports `numpy.std = sqrt(1/4) = 1/2` (divisor `R`), whereas the sample
standard deviation of the claim (divisor `R - 1`) is `sqrt(1/2) ≠ 1/2` —
the aggregator does not report the sample standard deviation. -/
theorem sample_std_not_reported_cex :
    priceEstimates P3 Zc3 fitZero 2 = [1, 0] ∧
    (aggregateResult (priceEstimates P3 Zc3 fitZero 2)).2 = 1/2 ∧
    sampleStd (priceEstimates P3 Zc3 fitZero 2) ≠ 1/2 := by
  have hrun0 : runRep P3 (Zc3 0) fitZero = 1 := by
    have hpath : ∀ m, pathS P3 (Zc3 0) m 1 = 1 := by
      intro m
      show pathS P3 (Zc3 0) m 0 * gbmFactor P3 (Zc3 0 1 m) = 1
      rw [show pathS P3 (Zc3 0) m 0 = 1 from rfl, gbmFactor,
        show Zc3 0 1 m = 1/2 from rfl]
      norm_num [P3]
    rw [runRep, solvePrice]
    have hfinal : finalState P3 (batch P3 (Zc3 0)) fitZero =
        initState P3 (batch P3 (Zc3 0)) := rfl
    rw [hfinal]
    have hsummand : ∀ p : Fin P3.N,
        Real.exp (-P3.r * P3.dt) * (initState P3 (batch P3 (Zc3 0))).payoff p = 1 := by
      intro p
      show Real.exp (-P3.r * P3.dt) * max (P3.K - batch P3 (Zc3 0) p P3.nt) 0 = 1
      rw [show batch P3 (Zc3 0) p P3.nt = pathS P3 (Zc3 0) p.val 1 from rfl, hpath]
      norm_num [P3]
    rw [Finset.sum_congr rfl (fun p _ => hsummand p)]
    exact mean_const P3.N 1 (by norm_num [P3])
  have hrun1 : runRep P3 (Zc3 1) fitZero = 0 := by
    have hpath : ∀ m, pathS P3 (Zc3 1) m 1 = 2 := by
      intro m
      show pathS P3 (Zc3 1) m 0 * gbmFactor P3 (Zc3 1 1 m) = 2
      rw [show pathS P3 (Zc3 1) m 0 = 1 from rfl, gbmFactor,
        show Zc3 1 1 m = 1/2 + Real.log 2 from rfl]
      rw [show P3.r = 0 from rfl, show P3.sigma = 1 from rfl,
        show P3.dt = 1 from rfl, Real.sqrt_one]
      rw [show ((0:ℝ) - 0.5 * 1 ^ 2) * 1 + 1 * 1 * (1/2 + Real.log 2) =
        Real.log 2 by ring]
      rw [Real.exp_log (by norm_num : (0:ℝ) < 2)]
      norm_num
    rw [runRep, solvePrice]
    have hfinal : finalState P3 (batch P3 (Zc3 1)) fitZero =
        initState P3 (batch P3 (Zc3 1)) := rfl
    rw [hfinal]
    have hsummand : ∀ p : Fin P3.N,
        Real.exp (-P3.r * P3.dt) * (initState P3 (batch P3 (Zc3 1))).payoff p = 0 := by
      intro p
      show Real.exp (-P3.r * P3.dt) * max (P3.K - batch P3 (Zc3 1) p P3.nt) 0 = 0
      rw [show batch P3 (Zc3 1) p P3.nt = pathS P3 (Zc3 1) p.val 1 from rfl, hpath]
      norm_num [P3]
    rw [Finset.sum_congr rfl (fun p _ => hsummand p)]
    rw [Finset.sum_const, Finset.card_univ, Fintype.card_fin]
    norm_num
  have hlist : priceEstimates P3 Zc3 fitZero 2 = [1, 0] := by
    rw [priceEstimates, show List.range 2 = [0, 1] from rfl, List.map_cons,
      List.map_cons, List.map_nil, hrun0, hrun1]
  have hmean : np_mean [(1:ℝ), 0] = 1/2 := by
    norm_num [np_mean]
  refine ⟨hlist, ?_, ?_⟩
  · rw [hlist]
    show np_std [(1:ℝ), 0] = 1/2
    rw [np_std, np_var, hmean]
    norm_num
    rw [show (4:ℝ) = 2 ^ 2 by norm_num, Real.sqrt_sq (by norm_num : (0:ℝ) ≤ 2)]
    norm_num
  · rw [hlist, sampleStd, sampleVar, hmean]
    norm_num
    intro h
    have h2 : Real.sqrt 2 = (1/2 : ℝ)⁻¹ := inv_eq_iff_eq_inv.mp h
    rw [show ((1/2:ℝ))⁻¹ = 2 by norm_num] at h2
    have h4 := Real.sq_sqrt (by norm_num : (0:ℝ) ≤ 2)
    rw [h2] at h4
    norm_num at h4

/-- The invalid-parameter scenario for C4: `sigma = -1 < 0`, all other
fields as in a one-path, one-step run with `r = 0`, `K = 2`, `S0 = 1`. -/
def P4 : Params := { r := 0, K := 2, dt := 1, nt := 1, N := 1, S0 := 1, sigma := -1 }

/-- An all-zeros stream of standard-normal draws. -/
def Z0 : ℕ → ℕ → ℝ := fun _ _ => 0

/-- C4 (counterexample): with the invalid parameter set `P4` (`sigma < 0`)
the program does not fail: the simulation consumes its draws and builds the
path batch (`S[0,1] = exp(-1/2)`), the solver runs, and a positive numeric
price estimate `2 - exp(-1/2)` is produced — there is no configuration check
and no error path in the code. -/
theorem config_error_missing_cex :
    P4.sigma < 0 ∧
    pathS P4 Z0 0 1 = Real.exp (-(1/2) : ℝ) ∧
    runRep P4 Z0 fitZero = 2 - Real.exp (-(1/2) : ℝ) ∧
    0 < runRep P4 Z0 fitZero := by
  have hstep : ∀ m, pathS P4 Z0 m 1 = Real.exp (-(1/2) : ℝ) := by
    intro m
    show pathS P4 Z0 m 0 * gbmFactor P4 (Z0 1 m) = _
    rw [show pathS P4 Z0 m 0 = 1 from rfl]
    rw [gbmFactor]
    norm_num [P4, Z0]
  have hexp1 : Real.exp (-(1/2) : ℝ) < 1 := by
    rw [Real.exp_lt_one_iff]
    norm_num
  have hrun : runRep P4 Z0 fitZero = 2 - Real.exp (-(1/2) : ℝ) := by
    rw [runRep, solvePrice]
    have hfinal : finalState P4 (batch P4 Z0) fitZero = initState P4 (batch P4 Z0) :=
      rfl
    rw [hfinal]
    have hpayoff : ∀ p : Fin P4.N,
        (initState P4 (batch P4 Z0)).payoff p = 2 - Real.exp (-(1/2) : ℝ) := by
      intro p
      show max (P4.K - batch P4 Z0 p P4.nt) 0 = _
      rw [show batch P4 Z0 p P4.nt = pathS P4 Z0 p.val 1 from rfl, hstep p.val]
      rw [show P4.K = 2 from rfl]
      rw [max_eq_left]
      have := Real.exp_pos (-(1/2) : ℝ)
      linarith
    have hsummand : ∀ p : Fin P4.N,
        Real.exp (-P4.r * P4.dt) * (initState P4 (batch P4 Z0)).payoff p =
          2 - Real.exp (-(1/2) : ℝ) := by
      intro p
      rw [hpayoff p, show P4.r = 0 from rfl, show P4.dt = 1 from rfl]
      norm_num
    rw [Finset.sum_congr rfl (fun p _ => hsummand p)]
    exact mean_const P4.N _ (by norm_num [P4])
  refine ⟨by norm_num [P4], hstep 0, hrun, ?_⟩
  rw [hrun]
  linarith

/-- C4 (amended): the code performs no parameter validation at all — for any
parameter set satisfying one of the claim's invalidity conditions
(`N < 1`, `nt < 1`, `dt ≤ 0`, `sigma < 0`, `S0 ≤ 0`), the path simulation
still starts at `S0` and still performs its multiplicative GBM steps, and
the full repetition still returns a numeric price estimate given by the
usual discount-and-average formula; no `ConfigurationError` exists. -/
theorem no_parameter_validation (P : Params) (Z : ℕ → ℕ → ℝ)
    (fit : List (ℝ × ℝ × ℝ) → List ℝ → ℝ × ℝ × ℝ)
    (hinvalid : P.N < 1 ∨ P.nt < 1 ∨ P.dt ≤ 0 ∨ P.sigma < 0 ∨ P.S0 ≤ 0) :
    (∀ p, pathS P Z p 0 = P.S0) ∧
    (∀ p i, pathS P Z p (i + 1) = pathS P Z p i * gbmFactor P (Z (i + 1) p)) ∧
    runRep P Z fit =
      (∑ p : Fin P.N,
        Real.exp (-P.r * P.dt) * (finalState P (batch P Z) fit).payoff p) / P.N :=
  ⟨fun _ => rfl, fun _ _ => rfl, rfl⟩

/-- C9: given that all entering exercise times exceed the loop index `t`
(which the loop maintains), a path can leave step `t` with `exec_t = t` only
if it is in the money at `t`; consequently, in the payoff update the branch
`exec_t == t` never fires for an out-of-the-money path, whose payoff becomes
the discounted carried-forward value, never a stale stored intrinsic. -/
theorem exec_assignment_only_itm (P : Params) {n : ℕ} (S : Fin n → ℕ → ℝ)
    (fit : List (ℝ × ℝ × ℝ) → List ℝ → ℝ × ℝ × ℝ) (t : ℕ) (st : SolverState n)
    (hexec : ∀ q, t < st.exec_t q) :
    ∀ p, ((backStep P S fit t st).exec_t p = t → S p t < P.K) ∧
      (¬ S p t < P.K →
        (backStep P S fit t st).payoff p = Real.exp (-P.r * P.dt) * st.payoff p) := by
  intro p
  constructor
  · intro ht
    by_contra hnot
    have hex : (backStep P S fit t st).exec_t p = st.exec_t p := by
      rw [backStep_exec]
      exact if_neg (fun hc => hnot hc.1)
    rw [hex] at ht
    exact Nat.lt_irrefl t (ht ▸ hexec p)
  · intro hnot
    have hex : (backStep P S fit t st).exec_t p = st.exec_t p := by
      rw [backStep_exec]
      exact if_neg (fun hc => hnot hc.1)
    rw [backStep_payoff, hex]
    exact if_neg (Nat.ne_of_gt (hexec p))

/-! ### Concrete instantiations -/

/-- A small valid parameter set (`r = 0`, `sigma = 0`, one path, one step). -/
def Pc : Params := { r := 0, K := 1, dt := 1, nt := 1, N := 1, S0 := 1, sigma := 0 }

/-- A one-path batch that is out of the money everywhere (`spot 2 ≥ K = 1`). -/
def Sc : Fin 1 → ℕ → ℝ := fun _ _ => 2

/-- Valid parameters for the zero-volatility scenario with `S0 = 1 < K = 2`
and two time steps, so the backward loop runs one regression. -/
def P1 : Params := { r := 0, K := 2, dt := 1, nt := 2, N := 1, S0 := 1, sigma := 0 }

/-- A three-level all-zeros draw stream (repetition, step, path). -/
def Z3 : ℕ → ℕ → ℕ → ℝ := fun _ _ _ => 0

theorem zero_vol_zero_rate_exact_price_witness :
    (P1.sigma = 0 ∧ P1.r = 0 ∧ 1 ≤ P1.nt ∧ 1 ≤ P1.N ∧ 0 < P1.dt ∧ 0 < P1.S0 ∧
      0 < P1.K) ∧
    ((∀ p i, pathS P1 Z0 p i = P1.S0) ∧
      (∀ p, (finalState P1 (batch P1 Z0) fitHead).exec_t p = P1.nt) ∧
      runRep P1 Z0 fitHead = max (P1.K - P1.S0) 0) := by
  have hfit : ∀ β', SSE (List.replicate P1.N ((1:ℝ), P1.S0, P1.S0 ^ 2))
      (List.replicate P1.N (max (P1.K - P1.S0) 0))
      (fitHead (List.replicate P1.N ((1:ℝ), P1.S0, P1.S0 ^ 2))
        (List.replicate P1.N (max (P1.K - P1.S0) 0))) ≤
      SSE (List.replicate P1.N ((1:ℝ), P1.S0, P1.S0 ^ 2))
        (List.replicate P1.N (max (P1.K - P1.S0) 0)) β' := by
    intro β'
    have hh : fitHead (List.replicate P1.N ((1:ℝ), P1.S0, P1.S0 ^ 2))
        (List.replicate P1.N (max (P1.K - P1.S0) 0)) =
          (max (P1.K - P1.S0) 0, 0, 0) := rfl
    have h0 : SSE (List.replicate P1.N ((1:ℝ), P1.S0, P1.S0 ^ 2))
        (List.replicate P1.N (max (P1.K - P1.S0) 0))
        (fitHead (List.replicate P1.N ((1:ℝ), P1.S0, P1.S0 ^ 2))
          (List.replicate P1.N (max (P1.K - P1.S0) 0))) = 0 := by
      rw [hh, SSE_replicate]
      norm_num [rowDot]
    rw [h0]
    exact SSE_nonneg _ _ _
  exact ⟨⟨rfl, rfl, by norm_num [P1], by norm_num [P1], by norm_num [P1],
      by norm_num [P1], by norm_num [P1]⟩,
    zero_vol_zero_rate_exact_price P1 Z0 fitHead rfl rfl (by norm_num [P1])
      (by norm_num [P1]) (by norm_num [P1]) (by norm_num [P1]) (by norm_num [P1]) hfit⟩

theorem exec_time_valid_and_monotone_witness :
    1 ≤ Pc.nt ∧
    ((∀ p, (initState Pc Sc).exec_t p = Pc.nt) ∧
      (∀ p, 1 ≤ (finalState Pc Sc fitZero).exec_t p ∧
        (finalState Pc Sc fitZero).exec_t p ≤ Pc.nt) ∧
      (∀ t (st : SolverState 1) p, (∀ q, t < st.exec_t q) →
        (backStep Pc Sc fitZero t st).exec_t p ≤ st.exec_t p ∧
        ((backStep Pc Sc fitZero t st).exec_t p ≠ st.exec_t p →
          (backStep Pc Sc fitZero t st).exec_t p = t ∧ t < st.exec_t p))) :=
  ⟨le_refl 1, exec_time_valid_and_monotone Pc Sc fitZero (le_refl 1)⟩

theorem aggregate_mean_and_population_std_witness :
    1 ≤ 1 ∧
    ((priceEstimates Pc Z3 fitZero 1).length = 1 ∧
      (aggregateResult (priceEstimates Pc Z3 fitZero 1)).1 =
        (priceEstimates Pc Z3 fitZero 1).sum / (1 : ℕ) ∧
      0 ≤ (aggregateResult (priceEstimates Pc Z3 fitZero 1)).2 ∧
      (aggregateResult (priceEstimates Pc Z3 fitZero 1)).2 ^ 2 =
        ((priceEstimates Pc Z3 fitZero 1).map fun x =>
          (x - np_mean (priceEstimates Pc Z3 fitZero 1)) ^ 2).sum / (1 : ℕ)) :=
  ⟨le_refl 1, aggregate_mean_and_population_std Pc Z3 fitZero 1 (le_refl 1)⟩

theorem no_parameter_validation_witness :
    P4.sigma < 0 ∧
    ((∀ p, pathS P4 Z0 p 0 = P4.S0) ∧
      (∀ p i, pathS P4 Z0 p (i + 1) = pathS P4 Z0 p i * gbmFactor P4 (Z0 (i + 1) p)) ∧
      runRep P4 Z0 fitZero =
        (∑ p : Fin P4.N,
          Real.exp (-P4.r * P4.dt) * (finalState P4 (batch P4 Z0) fitZero).payoff p) /
            P4.N) :=
  ⟨by norm_num [P4],
    no_parameter_validation P4 Z0 fitZero
      (Or.inr (Or.inr (Or.inr (Or.inl (by norm_num [P4])))))⟩

theorem gbm_batch_recurrence_witness :
    pathS Pc Z0 0 0 = Pc.S0 ∧
    (∀ q : Fin Pc.N, batch Pc Z0 q 0 = Pc.S0) ∧
    (1 ≤ 1 ∧
      pathS Pc Z0 0 1 =
        pathS Pc Z0 0 (1 - 1) *
          Real.exp ((Pc.r - 0.5 * Pc.sigma ^ 2) * Pc.dt +
            Pc.sigma * Real.sqrt Pc.dt * Z0 1 0)) :=
  ⟨(gbm_batch_recurrence Pc Z0 0).1, (gbm_batch_recurrence Pc Z0 0).2.1,
    le_refl 1, (gbm_batch_recurrence Pc Z0 0).2.2 1 (le_refl 1)⟩

theorem strict_itm_and_exercise_tests_witness :
    (⟨0, Nat.one_pos⟩ ∈ itmList Pc.K Sc 0 ↔ Sc ⟨0, Nat.one_pos⟩ 0 < Pc.K) ∧
    (Sc ⟨0, Nat.one_pos⟩ 0 = Pc.K → ⟨0, Nat.one_pos⟩ ∉ itmList Pc.K Sc 0) ∧
    (¬ yHat (stepBeta Pc Sc fitZero 0 (initState Pc Sc)) (Sc ⟨0, Nat.one_pos⟩ 0) <
        refreshIntrinsic Pc.K Sc 0 (initState Pc Sc).intrinsic ⟨0, Nat.one_pos⟩ →
      (backStep Pc Sc fitZero 0 (initState Pc Sc)).exec_t ⟨0, Nat.one_pos⟩ =
        (initState Pc Sc).exec_t ⟨0, Nat.one_pos⟩) ∧
    ((backStep Pc Sc fitZero 0 (initState Pc Sc)).exec_t ⟨0, Nat.one_pos⟩ ≠
        (initState Pc Sc).exec_t ⟨0, Nat.one_pos⟩ →
      Sc ⟨0, Nat.one_pos⟩ 0 < Pc.K ∧
        yHat (stepBeta Pc Sc fitZero 0 (initState Pc Sc)) (Sc ⟨0, Nat.one_pos⟩ 0) <
          refreshIntrinsic Pc.K Sc 0 (initState Pc Sc).intrinsic ⟨0, Nat.one_pos⟩) :=
  strict_itm_and_exercise_tests Pc Sc fitZero 0 (initState Pc Sc) ⟨0, Nat.one_pos⟩

theorem payoff_discounted_intrinsic_invariant_witness :
    1 ≤ Pc.nt ∧
    (payoffInv Pc Sc Pc.nt (initState Pc Sc) ∧
      (∀ t (st : SolverState 1), payoffInv Pc Sc (t + 1) st →
        payoffInv Pc Sc t (backStep Pc Sc fitZero t st)) ∧
      payoffInv Pc Sc 1 (finalState Pc Sc fitZero)) :=
  ⟨le_refl 1, payoff_discounted_intrinsic_invariant Pc Sc fitZero (le_refl 1)⟩

theorem empty_itm_step_skips_witness :
    (∀ q : Fin 1, ¬ Sc q 0 < Pc.K) ∧ (∀ q : Fin 1, 0 < (initState Pc Sc).exec_t q) ∧
    (itmList Pc.K Sc 0 = [] ∧
      designX Pc.K Sc 0 = [] ∧
      targetY Pc.K Sc 0 (dcfVec Pc (initState Pc Sc).payoff) = [] ∧
      ∀ p, (backStep Pc Sc fitZero 0 (initState Pc Sc)).exec_t p =
          (initState Pc Sc).exec_t p ∧
        (backStep Pc Sc fitZero 0 (initState Pc Sc)).intrinsic p =
          (initState Pc Sc).intrinsic p ∧
        (backStep Pc Sc fitZero 0 (initState Pc Sc)).payoff p =
          Real.exp (-Pc.r * Pc.dt) * (initState Pc Sc).payoff p) :=
  ⟨fun q => by norm_num [Sc, Pc], fun q => Nat.one_pos,
    empty_itm_step_skips Pc Sc fitZero 0 (initState Pc Sc)
      (fun q => by norm_num [Sc, Pc]) (fun q => Nat.one_pos)⟩

theorem exec_assignment_only_itm_witness :
    (∀ q : Fin 1, 0 < (initState Pc Sc).exec_t q) ∧
    (∀ p, ((backStep Pc Sc fitZero 0 (initState Pc Sc)).exec_t p = 0 →
        Sc p 0 < Pc.K) ∧
      (¬ Sc p 0 < Pc.K →
        (backStep Pc Sc fitZero 0 (initState Pc Sc)).payoff p =
          Real.exp (-Pc.r * Pc.dt) * (initState Pc Sc).payoff p)) :=
  ⟨fun q => Nat.one_pos,
    exec_assignment_only_itm Pc Sc fitZero 0 (initState Pc Sc) (fun q => Nat.one_pos)⟩

theorem payoffs_and_prices_nonneg_witness :
    (0 < Pc.K ∧ 0 < Pc.S0) ∧
    (nonnegState (initState Pc Sc) ∧
      (∀ t (st : SolverState 1), nonnegState st →
        nonnegState (backStep Pc Sc fitZero t st)) ∧
      nonnegState (finalState Pc Sc fitZero) ∧
      0 ≤ solvePrice Pc Sc fitZero ∧
      (∀ rep, 0 ≤ runRep Pc (Z3 rep) fitZero) ∧
      0 ≤ np_mean (priceEstimates Pc Z3 fitZero 1)) :=
  ⟨⟨by norm_num [Pc], by norm_num [Pc]⟩,
    payoffs_and_prices_nonneg Pc (by norm_num [Pc]) (by norm_num [Pc]) Sc fitZero Z3 1⟩

end
